import Mathlib

/-!
# Verification of the CEL validation harness (src/cel.go)

A shallow embedding of the Go program in src/cel.go.  External
collaborators (the YAML decoder and the CEL compiler/evaluator) are
modelled as abstract oracles, exactly at the interface the Go code
consumes:

* the YAML decoder is a finite stream of decode outcomes (a document or
  a decode error); after the stream is exhausted, Decode returns io.EOF;
* the CEL environment is a pair of functions, compile and program
  creation, each of which can fail with a message (the Go code only ever
  looks at issues.Err / err and formats it into the returned error);
* program evaluation is a function from (program, object, params) to
  either a value or an error message, together with the wall-clock cost
  of the call in abstract ticks (the only operation that advances the
  benchmark clock).

Output produced with fmt.Printf is modelled as a list of events, one
event per printed line, carrying the data that the line is formatted
from.
-/

set_option autoImplicit false

/-! ## YAML document loading (src/cel.go lines 17-46) -/

/-- Abstract model of a YAML byte stream as seen through yaml.Decoder:
the finite list of successive Decode outcomes (a document, or a decode
error with its message).  Once the list is exhausted, Decode returns
io.EOF. -/
abbrev YStream (Doc : Type) := List (Except String Doc)

/-- Errors surfaced by the two parse functions: the io.EOF sentinel, or
a wrapped decoder error. -/
inductive YErr where
  | eof : YErr
  | decodeErr (msg : String) : YErr
deriving DecidableEq

/-- Embeds parseYAMLDocuments (src/cel.go lines 18-35): decode documents
in a loop, stopping at io.EOF; any decode error aborts the whole parse
(prior documents are discarded). -/
def parseYAMLDocuments {Doc : Type} : YStream Doc → Except YErr (List Doc)
  | [] => .ok []
  | .error m :: _ => .error (.decodeErr m)
  | .ok d :: rest => (parseYAMLDocuments rest).map (fun ds => d :: ds)

/-- Embeds parseSingleYAMLDocument (src/cel.go lines 38-46): a single
Decode call whose error (including io.EOF on an empty stream) is
propagated to the caller. -/
def parseSingleYAMLDocument {Doc : Type} : YStream Doc → Except YErr Doc
  | [] => .error .eof
  | .error m :: _ => .error (.decodeErr m)
  | .ok d :: _ => .ok d

/-! ## Expression splitting (src/cel.go lines 201-205) and min (154-159) -/

/-- Embeds min (src/cel.go lines 154-159), specialised to the Nat
arguments it is applied to. -/
def min' (a b : Nat) : Nat :=
  if a < b then a else b

/-- Whitespace test used by the trimming model (the ASCII subset of
unicode.IsSpace that strings.TrimSpace strips; the inputs of interest
contain only ASCII whitespace). -/
def isSpaceChar (c : Char) : Bool :=
  c == ' ' || c == '\t' || c == '\n' || c == '\r'

/-- Models strings.TrimSpace on the character list of a string: drop
leading and trailing whitespace. -/
def trimChars (cs : List Char) : List Char :=
  (((cs.dropWhile isSpaceChar).reverse).dropWhile isSpaceChar).reverse

/-- Models strings.Split(s, sep) for the literal three-character
separator used in main (src/cel.go line 201): scan left to right,
closing the current segment (the reversed accumulator) at each
non-overlapping occurrence of the separator.  Empty segments are
produced and kept. -/
def splitDashes : List Char → List Char → List (List Char)
  | '-' :: '-' :: '-' :: rest, acc => acc.reverse :: splitDashes rest []
  | c :: cs, acc => splitDashes cs (c :: acc)
  | [], acc => [acc.reverse]

/-- Embeds the expression-file splitting in main (src/cel.go lines
201-205): trim the whole file, split on the literal delimiter, trim each
segment.  Empty segments are preserved. -/
def splitExpressions (data : String) : List String :=
  (splitDashes (trimChars data.data) []).map (fun cs => String.mk (trimChars cs))

/-- The string printed on the Content line of the benchmark report for
a raw expression s (src/cel.go line 131). -/
def contentSnippet (s : String) : String :=
  (s.take (min' 50 s.length)) ++ "..."

/-! ## Expression compilation (src/cel.go lines 53-74) -/

/-- The CEL environment, at the interface consumed by the harness:
compilation of a source string to an AST, and program creation from an
AST, each fallible with a message. -/
structure Env (Ast Prog : Type) where
  compile : String → Except String Ast
  program : Ast → Except String Prog

/-- The two error shapes produced by compileExpressions (src/cel.go
lines 63 and 68): each carries only the underlying cause's message. -/
inductive CompileErr where
  | compilationFailed (msg : String) : CompileErr
  | programCreationFailed (msg : String) : CompileErr
deriving DecidableEq

/-- Embeds compileExpressions (src/cel.go lines 54-74): skip empty
expressions, compile and bind each remaining one in order, aborting the
whole batch on the first failure. -/
def compileExpressions {Ast Prog : Type} (env : Env Ast Prog) :
    List String → Except CompileErr (List Prog)
  | [] => .ok []
  | expr :: rest =>
    if expr = "" then compileExpressions env rest
    else
      match env.compile expr with
      | .error m => .error (.compilationFailed m)
      | .ok ast =>
        match env.program ast with
        | .error m => .error (.programCreationFailed m)
        | .ok p => (compileExpressions env rest).map (fun ps => p :: ps)

/-! ## Claims C8 and C10: the two YAML parse functions -/

/-- C8: for every input stream on which both succeed, parsing a single
document returns exactly the first element of the sequence returned by
the multi-document parse. -/
theorem parseSingle_eq_head_of_multi {Doc : Type} (s : YStream Doc)
    (d : Doc) (ds : List Doc)
    (h1 : parseSingleYAMLDocument s = .ok d)
    (h2 : parseYAMLDocuments s = .ok ds) :
    ds.head? = some d := by
  match s with
  | [] => simp [parseSingleYAMLDocument] at h1
  | .error m :: rest => simp [parseSingleYAMLDocument] at h1
  | .ok d0 :: rest =>
    simp [parseSingleYAMLDocument] at h1
    rw [parseYAMLDocuments] at h2
    cases hr : parseYAMLDocuments rest with
    | error e => rw [hr] at h2; simp [Except.map] at h2
    | ok ds' =>
      rw [hr] at h2
      simp [Except.map] at h2
      subst h1
      subst h2
      rfl

/-- Witness for C8 on a concrete 3-document stream. -/
theorem parseSingle_eq_head_of_multi_witness :
    parseSingleYAMLDocument ([.ok 1, .ok 2, .ok 3] : YStream Nat) = .ok 1 ∧
    parseYAMLDocuments ([.ok 1, .ok 2, .ok 3] : YStream Nat) = .ok [1, 2, 3] ∧
    ([1, 2, 3] : List Nat).head? = some 1 :=
  ⟨rfl, rfl, parseSingle_eq_head_of_multi [.ok 1, .ok 2, .ok 3] 1 [1, 2, 3] rfl rfl⟩

/-- C10: on a stream with zero documents the single-document parse
propagates io.EOF as an error (so an empty params file is a fatal
startup error in main), while the multi-document parse accepts the same
stream and returns the empty document list. -/
theorem parseSingle_empty_stream_errors (Doc : Type) :
    parseSingleYAMLDocument ([] : YStream Doc) = .error .eof ∧
    parseYAMLDocuments ([] : YStream Doc) = .ok [] :=
  ⟨rfl, rfl⟩

/-! ## Interactive evaluation matrix (src/cel.go lines 244-280) -/

/-- Outcome of one cell of the interactive evaluation matrix: the
compile failure, program-creation failure, evaluation failure, or
success value printed for that (object, expression) pair. -/
inductive CellResult (Val : Type) where
  | compileFailed (msg : String) : CellResult Val
  | programFailed (msg : String) : CellResult Val
  | evalFailed (msg : String) : CellResult Val
  | success (v : Val) : CellResult Val
deriving DecidableEq

/-- One result cell of the interactive mode, tagged with the printed
1-based object and expression ordinals (src/cel.go lines 245 and 252). -/
structure Cell (Val : Type) where
  objOrdinal : Nat
  exprOrdinal : Nat
  result : CellResult Val
deriving DecidableEq

/-- The body of the interactive loop for one (object, expression) pair
(src/cel.go lines 254-278): compile, create the program, evaluate;
each failure is reported for this cell only. -/
def evalCell {Ast Prog Obj Par Val : Type} (env : Env Ast Prog)
    (evalProg : Prog → Obj → Par → Except String Val)
    (obj : Obj) (par : Par) (expr : String) : CellResult Val :=
  match env.compile expr with
  | .error m => .compileFailed m
  | .ok ast =>
    match env.program ast with
    | .error m => .programFailed m
    | .ok p =>
      match evalProg p obj par with
      | .error m => .evalFailed m
      | .ok v => .success v

/-- Inner loop of the interactive mode (src/cel.go lines 247-279):
iterate over the enumerated expressions, skipping empty ones. -/
def runMatrixExprs {Ast Prog Obj Par Val : Type} (env : Env Ast Prog)
    (evalProg : Prog → Obj → Par → Except String Val)
    (obj : Obj) (par : Par) (objOrd : Nat) :
    List (Nat × String) → List (Cell Val)
  | [] => []
  | (i, expr) :: rest =>
    if expr = "" then runMatrixExprs env evalProg obj par objOrd rest
    else ⟨objOrd, i + 1, evalCell env evalProg obj par expr⟩ ::
      runMatrixExprs env evalProg obj par objOrd rest

/-- Outer loop of the interactive mode (src/cel.go lines 244-280):
iterate over the enumerated objects. -/
def runMatrixObjs {Ast Prog Obj Par Val : Type} (env : Env Ast Prog)
    (evalProg : Prog → Obj → Par → Except String Val) (par : Par) :
    List (Nat × Obj) → List (Nat × String) → List (Cell Val)
  | [], _ => []
  | (oi, obj) :: rest, es =>
    runMatrixExprs env evalProg obj par (oi + 1) es ++
      runMatrixObjs env evalProg par rest es

/-- The interactive ("normal") mode of main (src/cel.go lines 244-280):
the full evaluation matrix over objects and expressions. -/
def runMatrix {Ast Prog Obj Par Val : Type} (env : Env Ast Prog)
    (evalProg : Prog → Obj → Par → Except String Val)
    (objs : List Obj) (par : Par) (exprs : List String) : List (Cell Val) :=
  runMatrixObjs env evalProg par objs.enum exprs.enum

/-- The printed 1-based ordinals of the non-empty expressions, in the
order the inner loop visits them. -/
def nonEmptyOrdinals (exprs : List String) : List Nat :=
  ((exprs.enum).filter (fun p => !(p.2 == ""))).map (fun p => p.1 + 1)

theorem runMatrixExprs_map_tag {Ast Prog Obj Par Val : Type} (env : Env Ast Prog)
    (evalProg : Prog → Obj → Par → Except String Val)
    (obj : Obj) (par : Par) (objOrd : Nat) (l : List (Nat × String)) :
    (runMatrixExprs env evalProg obj par objOrd l).map
        (fun c => (c.objOrdinal, c.exprOrdinal))
      = (l.filter (fun p => !(p.2 == ""))).map (fun p => (objOrd, p.1 + 1)) := by
  induction l with
  | nil => rfl
  | cons hd tl ih =>
    obtain ⟨i, expr⟩ := hd
    by_cases h : expr = ""
    · simp [runMatrixExprs, List.filter_cons, h, ih]
    · simp [runMatrixExprs, List.filter_cons, h, ih]

theorem runMatrixExprs_length {Ast Prog Obj Par Val : Type} (env : Env Ast Prog)
    (evalProg : Prog → Obj → Par → Except String Val)
    (obj : Obj) (par : Par) (objOrd : Nat) (l : List (Nat × String)) :
    (runMatrixExprs env evalProg obj par objOrd l).length
      = (l.filter (fun p => !(p.2 == ""))).length := by
  have h := congrArg List.length
    (runMatrixExprs_map_tag env evalProg obj par objOrd l)
  simpa using h

theorem runMatrixObjs_map_tag {Ast Prog Obj Par Val : Type} (env : Env Ast Prog)
    (evalProg : Prog → Obj → Par → Except String Val) (par : Par)
    (ol : List (Nat × Obj)) (es : List (Nat × String)) :
    (runMatrixObjs env evalProg par ol es).map
        (fun c => (c.objOrdinal, c.exprOrdinal))
      = ol.flatMap (fun oi =>
          (es.filter (fun p => !(p.2 == ""))).map (fun p => (oi.1 + 1, p.1 + 1))) := by
  induction ol with
  | nil => rfl
  | cons hd tl ih =>
    obtain ⟨oi, obj⟩ := hd
    simp [runMatrixObjs, List.flatMap_cons, ih,
      runMatrixExprs_map_tag env evalProg obj par (oi + 1) es]

theorem runMatrixObjs_length {Ast Prog Obj Par Val : Type} (env : Env Ast Prog)
    (evalProg : Prog → Obj → Par → Except String Val) (par : Par)
    (ol : List (Nat × Obj)) (es : List (Nat × String)) :
    (runMatrixObjs env evalProg par ol es).length
      = ol.length * (es.filter (fun p => !(p.2 == ""))).length := by
  induction ol with
  | nil => simp [runMatrixObjs]
  | cons hd tl ih =>
    obtain ⟨oi, obj⟩ := hd
    simp [runMatrixObjs, ih, runMatrixExprs_length env evalProg obj par (oi + 1) es,
      Nat.succ_mul, Nat.add_comm]

theorem enumFrom_filter_snd_length (l : List String) :
    ∀ n : Nat, ((List.enumFrom n l).filter (fun p => !(p.2 == ""))).length
      = (l.filter (fun s => !(s == ""))).length := by
  induction l with
  | nil => intro n; rfl
  | cons s t ih =>
    intro n
    by_cases h : s = ""
    · simp [List.enumFrom_cons, List.filter_cons, h, ih (n + 1)]
    · simp [List.enumFrom_cons, List.filter_cons, h, ih (n + 1)]

theorem mem_enumFrom_fst_le {α : Type} {l : List α} {n : Nat} {p : Nat × α}
    (h : p ∈ List.enumFrom n l) : n ≤ p.1 := by
  obtain ⟨i, x⟩ := p
  exact (List.mem_enumFrom h).1

theorem enumFrom_nonEmpty_ordinals_sorted (l : List String) :
    ∀ n : Nat, List.Pairwise (fun a b => a < b)
      (((List.enumFrom n l).filter (fun p => !(p.2 == ""))).map (fun p => p.1 + 1)) := by
  induction l with
  | nil => intro n; simp
  | cons s t ih =>
    intro n
    by_cases h : s = ""
    · simpa [List.enumFrom_cons, List.filter_cons, h] using ih (n + 1)
    · have hkeep : (fun p => !(p.2 == "")) ((n, s) : Nat × String) = true := by
        simp [h]
      rw [List.enumFrom_cons, List.filter_cons, if_pos hkeep, List.map_cons,
        List.pairwise_cons]
      refine ⟨?_, ih (n + 1)⟩
      intro x hx
      simp only [List.mem_map] at hx
      obtain ⟨q, hq, rfl⟩ := hx
      have hq' : q ∈ List.enumFrom (n + 1) t := List.mem_of_mem_filter hq
      have := mem_enumFrom_fst_le hq'
      omega

/-- C3: interactive mode produces exactly K times M result cells (K
objects, M non-empty expressions), in deterministic order: outer loop
over objects by ascending ordinal, inner loop over expressions by
ascending ordinal, independent of any per-cell outcome (so no cell
failure prevents any later cell from being evaluated). -/
theorem runMatrix_cells_shape {Ast Prog Obj Par Val : Type} (env : Env Ast Prog)
    (evalProg : Prog → Obj → Par → Except String Val)
    (objs : List Obj) (par : Par) (exprs : List String) :
    (runMatrix env evalProg objs par exprs).length
        = objs.length * (exprs.filter (fun s => !(s == ""))).length
    ∧ (runMatrix env evalProg objs par exprs).map
          (fun c => (c.objOrdinal, c.exprOrdinal))
        = (List.range objs.length).flatMap (fun k =>
            (nonEmptyOrdinals exprs).map (fun eo => (k + 1, eo)))
    ∧ List.Pairwise (fun a b => a < b) (nonEmptyOrdinals exprs) := by
  refine ⟨?_, ?_, ?_⟩
  · rw [runMatrix, runMatrixObjs_length, List.enum_length,
      show exprs.enum = List.enumFrom 0 exprs from rfl,
      enumFrom_filter_snd_length]
  · rw [runMatrix, runMatrixObjs_map_tag]
    have hgen : ∀ (os : List Obj) (n : Nat),
        (List.enumFrom n os).flatMap (fun oi =>
          ((exprs.enum.filter (fun p => !(p.2 == ""))).map
            (fun p => (oi.1 + 1, p.1 + 1))))
        = (List.range' n os.length).flatMap (fun k =>
            (nonEmptyOrdinals exprs).map (fun eo => (k + 1, eo))) := by
      intro os
      induction os with
      | nil => intro n; rfl
      | cons o ot ih =>
        intro n
        rw [List.enumFrom_cons, List.flatMap_cons, ih (n + 1),
          show List.range' n ((o :: ot).length) = n :: List.range' (n + 1) ot.length from rfl,
          List.flatMap_cons]
        congr 1
        rw [nonEmptyOrdinals, List.map_map]
        rfl
    rw [show objs.enum = List.enumFrom 0 objs from rfl, hgen objs 0,
      List.range_eq_range']
  · exact enumFrom_nonEmpty_ordinals_sorted exprs 0

/-! ## Benchmark harness (src/cel.go lines 76-151)

Program evaluation is abstracted as an oracle from the phase in which
the call happens (warm-up or timed), the program, the object and the
params to a result and the wall-clock cost of the call in abstract
ticks.  The clock is threaded explicitly; only evaluation calls advance
it, so a duration is the sum of the costs of the evaluations it spans. -/

/-- The code region a Program.Eval call is issued from: the warm-up
loop (src/cel.go lines 82-91) or the timed loop (lines 106-123). -/
inductive Phase where
  | warmup : Phase
  | timed : Phase
deriving DecidableEq

/-- The evaluation oracle: result and cost of one Program.Eval call. -/
abbrev EvalOracle (Prog Obj Par Val : Type) :=
  Phase → Prog → Obj → Par → Except String Val × Nat

/-- Per-expression accumulator of the benchmark (src/cel.go lines
94-97): evaluation count and cumulative duration in ticks. -/
structure ExprStats where
  evalCount : Nat
  duration : Nat
deriving DecidableEq

/-- The fixed iteration count of the timed phase (src/cel.go line
108). -/
def iterations : Nat := 1024 * 1024

/-- Clock advance of the inner warm-up loop over programs (src/cel.go
lines 84-90): every result and error is discarded; only the cost
remains. -/
def warmupProgs {Prog Obj Par Val : Type} (e : EvalOracle Prog Obj Par Val)
    (par : Par) (obj : Obj) : List Prog → Nat → Nat
  | [], t => t
  | p :: ps, t => warmupProgs e par obj ps (t + (e .warmup p obj par).2)

/-- Clock advance of the warm-up loop over objects (src/cel.go lines
83-91). -/
def warmupObjs {Prog Obj Par Val : Type} (e : EvalOracle Prog Obj Par Val)
    (par : Par) : List Obj → List Prog → Nat → Nat
  | [], _, t => t
  | o :: os, ps, t => warmupObjs e par os ps (warmupProgs e par o ps t)

/-- Clock advance of n warm-up repetitions (src/cel.go lines 82-91). -/
def warmupRounds {Prog Obj Par Val : Type} (e : EvalOracle Prog Obj Par Val)
    (par : Par) (objs : List Obj) (ps : List Prog) : Nat → Nat → Nat
  | 0, t => t
  | n + 1, t => warmupRounds e par objs ps n (warmupObjs e par objs ps t)

/-- The clock value when the warm-up phase (10 repetitions, src/cel.go
line 82) finishes, started at t0. -/
def warmupEnd {Prog Obj Par Val : Type} (e : EvalOracle Prog Obj Par Val)
    (par : Par) (objs : List Obj) (ps : List Prog) (t0 : Nat) : Nat :=
  warmupRounds e par objs ps 10 t0

/-- One pass of the timed loop over all objects for one program
(src/cel.go lines 109-119): the total cost, or the message of the first
failing evaluation. -/
def evalRound {Prog Obj Par Val : Type} (e : EvalOracle Prog Obj Par Val)
    (par : Par) (p : Prog) : List Obj → Except String Nat
  | [] => .ok 0
  | o :: os =>
    match e .timed p o par with
    | (.error m, _) => .error m
    | (.ok _, c) => (evalRound e par p os).map (fun r => c + r)

/-- The k-iteration loop of the timed phase for one program (src/cel.go
lines 108-120): k passes over all objects, aborting at the first
evaluation error. -/
def iterateK {Prog Obj Par Val : Type} (e : EvalOracle Prog Obj Par Val)
    (par : Par) (p : Prog) (objs : List Obj) : Nat → Except String Nat
  | 0 => .ok 0
  | k + 1 =>
    match evalRound e par p objs with
    | .error m => .error m
    | .ok c => (iterateK e par p objs k).map (fun r => c + r)

/-- The timed phase over the program list (src/cel.go lines 106-123),
with the 0-based index i and the current clock threaded through.  On
success: the per-program stats — evalCount set to the iteration count,
duration measured as time.Since of the clock at the program's start —
and the final clock.  On the first evaluation error: the 1-based
ordinal of the failing program and the error message. -/
def timedPhase {Prog Obj Par Val : Type} (e : EvalOracle Prog Obj Par Val)
    (par : Par) (objs : List Obj) :
    List Prog → Nat → Nat → Except (Nat × String) (List ExprStats × Nat)
  | [], _, now => .ok ([], now)
  | p :: ps, i, now =>
    match iterateK e par p objs iterations with
    | .error m => .error (i + 1, m)
    | .ok c =>
      match timedPhase e par objs ps (i + 1) (now + c) with
      | .error em => .error em
      | .ok (sts, fin) => .ok (⟨iterations, (now + c) - now⟩ :: sts, fin)

/-- One printed line of the benchmark output, carrying the data the
line is formatted from (src/cel.go lines 78, 81, 102, 116, 128-138,
147-150).  Rates are modelled as rationals: count divided by a duration
in ticks. -/
inductive Event where
  | benchHeader : Event
  | warmingUp : Event
  | runningBenchmark : Event
  | benchError (exprOrdinal : Nat) (msg : String) : Event
  | exprHeader (ordinal : Nat) : Event
  | content (text : String) : Event
  | evaluations (count : Nat) : Event
  | totalTime (ticks : Nat) : Event
  | avgTime (ticks : Nat) : Event
  | evalsPerSec (rate : ℚ) : Event
  | summaryHeader : Event
  | summaryDuration (ticks : Nat) : Event
  | summaryEvals (count : Nat) : Event
  | overallRate (rate : ℚ) : Event
deriving DecidableEq

/-- The detailed report block for the program at 0-based position i
(src/cel.go lines 128-139): the Content line is printed only when i is
in range of the raw expression list, and the average and rate lines
only when the count is positive; the rate divides the count by the
total duration of the whole timed phase. -/
def reportExpr (exprs : List String) (totalDur : Nat) (i : Nat)
    (s : ExprStats) : List Event :=
  [Event.exprHeader (i + 1)]
  ++ (match exprs.get? i with
      | some t => [Event.content (contentSnippet t)]
      | none => [])
  ++ [Event.evaluations s.evalCount, Event.totalTime s.duration]
  ++ (if 0 < s.evalCount then
        [Event.avgTime (s.duration / s.evalCount),
         Event.evalsPerSec ((s.evalCount : ℚ) / (totalDur : ℚ))]
      else [])

/-- The per-expression report loop (src/cel.go lines 128-139). -/
def reportStats (exprs : List String) (totalDur : Nat) :
    List ExprStats → Nat → List Event
  | [], _ => []
  | s :: rest, i => reportExpr exprs totalDur i s ++ reportStats exprs totalDur rest (i + 1)

/-- The aggregate summary block (src/cel.go lines 141-150). -/
def summaryEvents (stats : List ExprStats) (totalDur : Nat) : List Event :=
  [Event.summaryHeader, Event.summaryDuration totalDur,
   Event.summaryEvals ((stats.map (fun s => s.evalCount)).sum),
   Event.overallRate ((((stats.map (fun s => s.evalCount)).sum : Nat) : ℚ) / (totalDur : ℚ))]

/-- Embeds runBenchmark (src/cel.go lines 77-151) as the list of
printed lines: header, warm-up, timed phase (aborting on the first
evaluation error after reporting the failing program's ordinal), then
the per-program reports and the summary. -/
def runBenchmark {Prog Obj Par Val : Type} (e : EvalOracle Prog Obj Par Val)
    (objs : List Obj) (programs : List Prog) (par : Par)
    (exprs : List String) : List Event :=
  let startTime := warmupEnd e par objs programs 0
  match timedPhase e par objs programs 0 startTime with
  | .error (ord, m) =>
    [Event.benchHeader, Event.warmingUp, Event.runningBenchmark,
     Event.benchError ord m]
  | .ok (stats, fin) =>
    [Event.benchHeader, Event.warmingUp, Event.runningBenchmark]
    ++ reportStats exprs (fin - startTime) stats 0
    ++ summaryEvents stats (fin - startTime)

/-- The values of the Evaluations lines of a benchmark trace, in
order. -/
def evaluationsOf (tr : List Event) : List Nat :=
  tr.filterMap (fun x => match x with
    | .evaluations n => some n
    | _ => none)

/-- The values of the per-expression evaluations-per-second lines of a
benchmark trace, in order. -/
def ratesOf (tr : List Event) : List ℚ :=
  tr.filterMap (fun x => match x with
    | .evalsPerSec q => some q
    | _ => none)

/-- The values of the overall-rate lines of a benchmark trace. -/
def overallOf (tr : List Event) : List ℚ :=
  tr.filterMap (fun x => match x with
    | .overallRate q => some q
    | _ => none)

/-- The strings of the Content lines of a benchmark trace, in order. -/
def contentsOf (tr : List Event) : List String :=
  tr.filterMap (fun x => match x with
    | .content s => some s
    | _ => none)

/-! ## Characterisation lemmas for the timed phase -/

theorem evalRound_ok {Prog Obj Par Val : Type} (e : EvalOracle Prog Obj Par Val)
    (par : Par) (p : Prog) :
    ∀ objs : List Obj, (∀ o ∈ objs, ((e .timed p o par).1).isOk = true) →
      ∃ c, evalRound e par p objs = .ok c := by
  intro objs
  induction objs with
  | nil => intro _; exact ⟨0, rfl⟩
  | cons o os ih =>
    intro h
    have ho := h o (List.mem_cons_self o os)
    rcases hp : e .timed p o par with ⟨r, c⟩
    cases r with
    | error m => rw [hp] at ho; simp [Except.isOk, Except.toBool] at ho
    | ok v =>
      obtain ⟨c', hc'⟩ := ih (fun x hx => h x (List.mem_cons_of_mem o hx))
      exact ⟨c + c', by simp [evalRound, hp, hc', Except.map]⟩

theorem evalRound_error {Prog Obj Par Val : Type} (e : EvalOracle Prog Obj Par Val)
    (par : Par) (p : Prog) :
    ∀ objs : List Obj, (∃ o ∈ objs, ∃ m, (e .timed p o par).1 = .error m) →
      ∃ m, evalRound e par p objs = .error m := by
  intro objs
  induction objs with
  | nil => rintro ⟨o, ho, _⟩; exact absurd ho (List.not_mem_nil o)
  | cons o os ih =>
    rintro ⟨o', ho', m', hm'⟩
    rcases hp : e .timed p o par with ⟨r, c⟩
    cases r with
    | error m => exact ⟨m, by simp [evalRound, hp]⟩
    | ok v =>
      rcases List.mem_cons.mp ho' with rfl | hmem
      · rw [hp] at hm'; simp at hm'
      · obtain ⟨m, hm⟩ := ih ⟨o', hmem, m', hm'⟩
        exact ⟨m, by simp [evalRound, hp, hm, Except.map]⟩

theorem iterateK_ok {Prog Obj Par Val : Type} (e : EvalOracle Prog Obj Par Val)
    (par : Par) (p : Prog) (objs : List Obj) (c : Nat)
    (h : evalRound e par p objs = .ok c) :
    ∀ k : Nat, iterateK e par p objs k = .ok (k * c) := by
  intro k
  induction k with
  | zero => simp [iterateK]
  | succ k ih =>
    simp only [iterateK, h, ih, Except.map]
    rw [Nat.succ_mul, Nat.add_comm]

theorem iterateK_error {Prog Obj Par Val : Type} (e : EvalOracle Prog Obj Par Val)
    (par : Par) (p : Prog) (objs : List Obj) (m : String)
    (h : evalRound e par p objs = .error m) :
    ∀ k : Nat, 0 < k → iterateK e par p objs k = .error m := by
  intro k hk
  cases k with
  | zero => exact absurd hk (by simp)
  | succ k => rw [iterateK, h]

theorem iterations_pos : 0 < iterations := by
  rw [iterations]; norm_num

theorem timedPhase_ok {Prog Obj Par Val : Type} (e : EvalOracle Prog Obj Par Val)
    (par : Par) (objs : List Obj) :
    ∀ ps : List Prog, (∀ p ∈ ps, ∀ o ∈ objs, ((e .timed p o par).1).isOk = true) →
    ∀ i now : Nat, ∃ stats fin, timedPhase e par objs ps i now = .ok (stats, fin)
      ∧ stats.length = ps.length
      ∧ ∀ s ∈ stats, s.evalCount = iterations := by
  intro ps
  induction ps with
  | nil => intro _ i now; exact ⟨[], now, rfl, rfl, by simp⟩
  | cons p ps ih =>
    intro h i now
    obtain ⟨c, hc⟩ := evalRound_ok e par p objs (h p (List.mem_cons_self p ps))
    obtain ⟨stats, fin, hrec, hlen, hcount⟩ :=
      ih (fun q hq => h q (List.mem_cons_of_mem p hq)) (i + 1) (now + iterations * c)
    refine ⟨⟨iterations, (now + iterations * c) - now⟩ :: stats, fin, ?_, by simp [hlen], ?_⟩
    · simp only [timedPhase, iterateK_ok e par p objs c hc iterations, hrec]
    · intro s hs
      rcases List.mem_cons.mp hs with rfl | hmem
      · rfl
      · exact hcount s hmem

theorem timedPhase_error_at {Prog Obj Par Val : Type} (e : EvalOracle Prog Obj Par Val)
    (par : Par) (objs : List Obj) (p : Prog) (post : List Prog)
    (hfail : ∃ m, evalRound e par p objs = .error m) :
    ∀ pre : List Prog, (∀ q ∈ pre, ∃ c, evalRound e par q objs = .ok c) →
    ∀ i now : Nat, ∃ m,
      timedPhase e par objs (pre ++ p :: post) i now = .error (i + pre.length + 1, m) := by
  intro pre
  induction pre with
  | nil =>
    intro _ i now
    obtain ⟨m, hm⟩ := hfail
    exact ⟨m, by
      simp only [List.nil_append, timedPhase,
        iterateK_error e par p objs m hm iterations iterations_pos,
        List.length_nil, Nat.add_zero]⟩
  | cons q pre ih =>
    intro h i now
    obtain ⟨c, hc⟩ := h q (List.mem_cons_self q pre)
    obtain ⟨m, hm⟩ :=
      ih (fun x hx => h x (List.mem_cons_of_mem q hx)) (i + 1) (now + iterations * c)
    refine ⟨m, ?_⟩
    rw [List.cons_append]
    simp only [timedPhase, iterateK_ok e par q objs c hc iterations, hm]
    have harith : i + (q :: pre).length + 1 = i + 1 + pre.length + 1 := by
      simp [List.length_cons]
      omega
    rw [harith]

theorem timedPhase_shift {Prog Obj Par Val : Type} (e : EvalOracle Prog Obj Par Val)
    (par : Par) (objs : List Obj) :
    ∀ (ps : List Prog) (i now : Nat),
      timedPhase e par objs ps i now
        = (timedPhase e par objs ps i 0).map (fun sd => (sd.1, now + sd.2)) := by
  intro ps
  induction ps with
  | nil => intro i now; simp [timedPhase, Except.map]
  | cons p ps ih =>
    intro i now
    cases hk : iterateK e par p objs iterations with
    | error m => simp [timedPhase, hk, Except.map]
    | ok c =>
      simp only [timedPhase, hk, ih (i + 1) (now + c), ih (i + 1) (0 + c)]
      cases ht : timedPhase e par objs ps (i + 1) 0 with
      | error em => simp [Except.map]
      | ok sd =>
        obtain ⟨sts, fin⟩ := sd
        simp only [Except.map]
        have h1 : (now + c) - now = c := by omega
        have h2 : (0 + c) - 0 = c := by omega
        rw [h1, h2]
        have h3 : now + c + fin = now + (0 + c + fin) := by omega
        rw [h3]

theorem evalRound_timed_congr {Prog Obj Par Val : Type}
    (e e' : EvalOracle Prog Obj Par Val) (par : Par) (p : Prog)
    (hag : ∀ (q : Prog) (o : Obj) (x : Par), e .timed q o x = e' .timed q o x) :
    ∀ objs : List Obj, evalRound e par p objs = evalRound e' par p objs := by
  intro objs
  induction objs with
  | nil => rfl
  | cons o os ih => rw [evalRound, evalRound, hag p o par, ih]

theorem iterateK_timed_congr {Prog Obj Par Val : Type}
    (e e' : EvalOracle Prog Obj Par Val) (par : Par) (p : Prog) (objs : List Obj)
    (hag : ∀ (q : Prog) (o : Obj) (x : Par), e .timed q o x = e' .timed q o x) :
    ∀ k : Nat, iterateK e par p objs k = iterateK e' par p objs k := by
  intro k
  induction k with
  | zero => rfl
  | succ k ih =>
    rw [iterateK, iterateK, evalRound_timed_congr e e' par p hag objs, ih]

theorem timedPhase_timed_congr {Prog Obj Par Val : Type}
    (e e' : EvalOracle Prog Obj Par Val) (par : Par) (objs : List Obj)
    (hag : ∀ (q : Prog) (o : Obj) (x : Par), e .timed q o x = e' .timed q o x) :
    ∀ (ps : List Prog) (i now : Nat),
      timedPhase e par objs ps i now = timedPhase e' par objs ps i now := by
  intro ps
  induction ps with
  | nil => intro i now; rfl
  | cons p ps ih =>
    intro i now
    rw [timedPhase, timedPhase, iterateK_timed_congr e e' par p objs hag iterations]
    cases iterateK e' par p objs iterations with
    | error m => rfl
    | ok c =>
      dsimp only
      rw [ih (i + 1) (now + c)]

/-! ## Extraction lemmas for the benchmark trace -/

theorem evaluationsOf_append (a b : List Event) :
    evaluationsOf (a ++ b) = evaluationsOf a ++ evaluationsOf b :=
  List.filterMap_append a b _

theorem ratesOf_append (a b : List Event) :
    ratesOf (a ++ b) = ratesOf a ++ ratesOf b :=
  List.filterMap_append a b _

theorem overallOf_append (a b : List Event) :
    overallOf (a ++ b) = overallOf a ++ overallOf b :=
  List.filterMap_append a b _

theorem contentsOf_append (a b : List Event) :
    contentsOf (a ++ b) = contentsOf a ++ contentsOf b :=
  List.filterMap_append a b _

theorem evaluationsOf_reportExpr (exprs : List String) (totalDur i : Nat)
    (s : ExprStats) : evaluationsOf (reportExpr exprs totalDur i s) = [s.evalCount] := by
  rcases h : exprs[i]? with _ | t <;> by_cases hc : 0 < s.evalCount <;>
    simp [reportExpr, evaluationsOf, h, hc]

theorem ratesOf_reportExpr (exprs : List String) (totalDur i : Nat)
    (s : ExprStats) (hc : 0 < s.evalCount) :
    ratesOf (reportExpr exprs totalDur i s)
      = [(s.evalCount : ℚ) / (totalDur : ℚ)] := by
  rcases h : exprs[i]? with _ | t <;> simp [reportExpr, ratesOf, h, hc]

theorem overallOf_reportExpr (exprs : List String) (totalDur i : Nat)
    (s : ExprStats) : overallOf (reportExpr exprs totalDur i s) = [] := by
  rcases h : exprs[i]? with _ | t <;> by_cases hc : 0 < s.evalCount <;>
    simp [reportExpr, overallOf, h, hc]

theorem contentsOf_reportExpr (exprs : List String) (totalDur i : Nat)
    (s : ExprStats) :
    contentsOf (reportExpr exprs totalDur i s)
      = match exprs.get? i with
        | some t => [contentSnippet t]
        | none => [] := by
  rcases h : exprs[i]? with _ | t <;> by_cases hc : 0 < s.evalCount <;>
    simp [reportExpr, contentsOf, h, hc]

theorem evaluationsOf_reportStats (exprs : List String) (totalDur : Nat) :
    ∀ (stats : List ExprStats) (i : Nat),
      evaluationsOf (reportStats exprs totalDur stats i)
        = stats.map (fun s => s.evalCount) := by
  intro stats
  induction stats with
  | nil => intro i; rfl
  | cons s rest ih =>
    intro i
    rw [reportStats, evaluationsOf_append, evaluationsOf_reportExpr, ih (i + 1),
      List.map_cons, List.singleton_append]

theorem ratesOf_reportStats (exprs : List String) (totalDur : Nat) :
    ∀ (stats : List ExprStats), (∀ s ∈ stats, 0 < s.evalCount) → ∀ i : Nat,
      ratesOf (reportStats exprs totalDur stats i)
        = stats.map (fun s => (s.evalCount : ℚ) / (totalDur : ℚ)) := by
  intro stats
  induction stats with
  | nil => intro _ i; rfl
  | cons s rest ih =>
    intro h i
    rw [reportStats, ratesOf_append,
      ratesOf_reportExpr exprs totalDur i s (h s (List.mem_cons_self s rest)),
      ih (fun x hx => h x (List.mem_cons_of_mem s hx)) (i + 1),
      List.map_cons, List.singleton_append]

theorem overallOf_reportStats (exprs : List String) (totalDur : Nat) :
    ∀ (stats : List ExprStats) (i : Nat),
      overallOf (reportStats exprs totalDur stats i) = [] := by
  intro stats
  induction stats with
  | nil => intro i; rfl
  | cons s rest ih =>
    intro i
    rw [reportStats, overallOf_append, overallOf_reportExpr, ih (i + 1),
      List.nil_append]

theorem contentsOf_reportStats (exprs : List String) (totalDur : Nat) :
    ∀ (stats : List ExprStats) (i : Nat), i + stats.length ≤ exprs.length →
      contentsOf (reportStats exprs totalDur stats i)
        = ((exprs.drop i).take stats.length).map contentSnippet := by
  intro stats
  induction stats with
  | nil => intro i _; simp [reportStats, contentsOf]
  | cons s rest ih =>
    intro i hle
    have hi : i < exprs.length := by
      simp only [List.length_cons] at hle
      omega
    have hget : exprs.get? i = some (exprs.get ⟨i, hi⟩) := List.get?_eq_get hi
    rw [reportStats, contentsOf_append, contentsOf_reportExpr, hget,
      ih (i + 1) (by simp only [List.length_cons] at hle; omega)]
    show contentSnippet (exprs.get ⟨i, hi⟩)
        :: ((exprs.drop (i + 1)).take rest.length).map contentSnippet
      = ((exprs.drop i).take ((s :: rest).length)).map contentSnippet
    rw [List.drop_eq_getElem_cons hi, List.length_cons, List.take_succ_cons,
      List.map_cons]
    rfl

theorem evaluationsOf_summary (stats : List ExprStats) (totalDur : Nat) :
    evaluationsOf (summaryEvents stats totalDur) = [] := by
  simp [summaryEvents, evaluationsOf]

theorem ratesOf_summary (stats : List ExprStats) (totalDur : Nat) :
    ratesOf (summaryEvents stats totalDur) = [] := by
  simp [summaryEvents, ratesOf]

theorem contentsOf_summary (stats : List ExprStats) (totalDur : Nat) :
    contentsOf (summaryEvents stats totalDur) = [] := by
  simp [summaryEvents, contentsOf]

theorem overallOf_summary (stats : List ExprStats) (totalDur : Nat) :
    overallOf (summaryEvents stats totalDur)
      = [(((stats.map (fun s => s.evalCount)).sum : Nat) : ℚ) / (totalDur : ℚ)] := by
  simp [summaryEvents, overallOf]

theorem runBenchmark_error_trace {Prog Obj Par Val : Type}
    (e : EvalOracle Prog Obj Par Val) (objs : List Obj) (programs : List Prog)
    (par : Par) (exprs : List String) (ord : Nat) (m : String)
    (h : timedPhase e par objs programs 0 (warmupEnd e par objs programs 0)
      = .error (ord, m)) :
    runBenchmark e objs programs par exprs
      = [Event.benchHeader, Event.warmingUp, Event.runningBenchmark,
         Event.benchError ord m] := by
  simp only [runBenchmark, h]

theorem runBenchmark_ok_trace {Prog Obj Par Val : Type}
    (e : EvalOracle Prog Obj Par Val) (objs : List Obj) (programs : List Prog)
    (par : Par) (exprs : List String) (stats : List ExprStats) (fin : Nat)
    (h : timedPhase e par objs programs 0 (warmupEnd e par objs programs 0)
      = .ok (stats, fin)) :
    runBenchmark e objs programs par exprs
      = [Event.benchHeader, Event.warmingUp, Event.runningBenchmark]
        ++ reportStats exprs (fin - warmupEnd e par objs programs 0) stats 0
        ++ summaryEvents stats (fin - warmupEnd e par objs programs 0) := by
  simp only [runBenchmark, h]

/-! ## Claim C4: a timed-phase evaluation error aborts the whole run -/

/-- C4: in benchmark mode an evaluation error during the timed phase
stops the entire run immediately: the failing program's 1-based ordinal
is reported and the function returns with no per-expression statistics
and no aggregate summary printed (the trace is exactly the two phase
banners, the running banner and the error line). -/
theorem runBenchmark_eval_error_aborts {Prog Obj Par Val : Type}
    (e : EvalOracle Prog Obj Par Val) (objs : List Obj) (par : Par)
    (exprs : List String) (pre : List Prog) (p : Prog) (post : List Prog)
    (hpre : ∀ q ∈ pre, ∀ o ∈ objs, ((e .timed q o par).1).isOk = true)
    (hfail : ∃ o ∈ objs, ∃ m, (e .timed p o par).1 = .error m) :
    ∃ m, runBenchmark e objs (pre ++ p :: post) par exprs
      = [Event.benchHeader, Event.warmingUp, Event.runningBenchmark,
         Event.benchError (pre.length + 1) m] := by
  have hfail' := evalRound_error e par p objs hfail
  have hpre' : ∀ q ∈ pre, ∃ c, evalRound e par q objs = .ok c :=
    fun q hq => evalRound_ok e par q objs (hpre q hq)
  obtain ⟨m, hm⟩ := timedPhase_error_at e par objs p post hfail' pre hpre' 0
    (warmupEnd e par objs (pre ++ p :: post) 0)
  rw [Nat.zero_add] at hm
  exact ⟨m, runBenchmark_error_trace e objs (pre ++ p :: post) par exprs
    (pre.length + 1) m hm⟩

/-- Concrete oracle for the C4 witness: evaluation of program 1 on
object 2 fails in the timed phase; everything else succeeds. -/
def evalOracleC4 : EvalOracle Nat Nat Unit Unit :=
  fun ph p o _ =>
    if ph = Phase.timed ∧ p = 1 ∧ o = 2 then (.error "no such key", 1)
    else (.ok (), 1)

/-- Witness for C4: three objects, the second program fails on object 2
of 3; the trace ends at the error line for ordinal 2. -/
theorem runBenchmark_eval_error_aborts_witness :
    ∃ m, runBenchmark evalOracleC4 [1, 2, 3] [0, 1] () ["a", "b"]
      = [Event.benchHeader, Event.warmingUp, Event.runningBenchmark,
         Event.benchError 2 m] :=
  runBenchmark_eval_error_aborts evalOracleC4 [1, 2, 3] () ["a", "b"] [0] 1 []
    (by decide) ⟨2, by decide, "no such key", rfl⟩

/-! ## Claim C7: the reported statistics are independent of warm-up -/

/-- C7: the per-expression statistics are created zeroed after the
warm-up phase, so the whole benchmark trace depends only on the
oracle's timed-phase behaviour: two oracles that agree on every timed
evaluation produce identical traces, whatever their warm-up results,
errors or costs were. -/
theorem runBenchmark_warmup_frame {Prog Obj Par Val : Type}
    (e e' : EvalOracle Prog Obj Par Val) (objs : List Obj)
    (programs : List Prog) (par : Par) (exprs : List String)
    (hag : ∀ (q : Prog) (o : Obj) (x : Par), e .timed q o x = e' .timed q o x) :
    runBenchmark e objs programs par exprs
      = runBenchmark e' objs programs par exprs := by
  have hcong := timedPhase_timed_congr e e' par objs hag programs 0 0
  cases ht : timedPhase e par objs programs 0 0 with
  | error em =>
    obtain ⟨ord, m⟩ := em
    have he : timedPhase e par objs programs 0 (warmupEnd e par objs programs 0)
        = .error (ord, m) := by
      rw [timedPhase_shift e par objs programs 0 (warmupEnd e par objs programs 0), ht]
      rfl
    have he' : timedPhase e' par objs programs 0 (warmupEnd e' par objs programs 0)
        = .error (ord, m) := by
      rw [timedPhase_shift e' par objs programs 0 (warmupEnd e' par objs programs 0),
        ← hcong, ht]
      rfl
    rw [runBenchmark_error_trace e objs programs par exprs ord m he,
      runBenchmark_error_trace e' objs programs par exprs ord m he']
  | ok sd =>
    obtain ⟨sts, fin⟩ := sd
    have he : timedPhase e par objs programs 0 (warmupEnd e par objs programs 0)
        = .ok (sts, warmupEnd e par objs programs 0 + fin) := by
      rw [timedPhase_shift e par objs programs 0 (warmupEnd e par objs programs 0), ht]
      rfl
    have he' : timedPhase e' par objs programs 0 (warmupEnd e' par objs programs 0)
        = .ok (sts, warmupEnd e' par objs programs 0 + fin) := by
      rw [timedPhase_shift e' par objs programs 0 (warmupEnd e' par objs programs 0),
        ← hcong, ht]
      rfl
    rw [runBenchmark_ok_trace e objs programs par exprs sts _ he,
      runBenchmark_ok_trace e' objs programs par exprs sts _ he']
    have hd : warmupEnd e par objs programs 0 + fin - warmupEnd e par objs programs 0
        = warmupEnd e' par objs programs 0 + fin - warmupEnd e' par objs programs 0 := by
      omega
    rw [hd]

/-- Concrete oracle for the C7 witness: every warm-up evaluation fails
(with a nonzero cost), every timed evaluation succeeds. -/
def warmFailOracle : EvalOracle Unit Unit Unit Unit :=
  fun ph _ _ _ =>
    match ph with
    | .warmup => (.error "warm failure", 7)
    | .timed => (.ok (), 1)

/-- Concrete oracle for the C7 witness: every evaluation succeeds. -/
def warmOkOracle : EvalOracle Unit Unit Unit Unit :=
  fun _ _ _ _ => (.ok (), 1)

/-- Witness for C7: a run whose warm-up evaluations all fail produces
the same trace as one whose warm-up evaluations all succeed. -/
theorem runBenchmark_warmup_frame_witness :
    runBenchmark warmFailOracle [()] [()] () ["x"]
      = runBenchmark warmOkOracle [()] [()] () ["x"] :=
  runBenchmark_warmup_frame warmFailOracle warmOkOracle [()] [()] () ["x"]
    (fun _ _ _ => rfl)

/-! ## Claim C1: the recorded evaluation count -/

/-- C1 (amended): after a fully successful timed phase, the evaluation
count recorded and reported for every compiled program equals the fixed
iteration count 1048576, regardless of the number of loaded objects
(src/cel.go line 122 assigns the iteration count, not iterations times
the object count). -/
theorem runBenchmark_evaluations_fixed {Prog Obj Par Val : Type}
    (e : EvalOracle Prog Obj Par Val) (objs : List Obj) (programs : List Prog)
    (par : Par) (exprs : List String)
    (hok : ∀ p ∈ programs, ∀ o ∈ objs, ((e .timed p o par).1).isOk = true) :
    evaluationsOf (runBenchmark e objs programs par exprs)
      = List.replicate programs.length 1048576 := by
  obtain ⟨stats, fin, ht, hlen, hcount⟩ :=
    timedPhase_ok e par objs programs hok 0 (warmupEnd e par objs programs 0)
  rw [runBenchmark_ok_trace e objs programs par exprs stats fin ht,
    evaluationsOf_append, evaluationsOf_append,
    evaluationsOf_reportStats, evaluationsOf_summary]
  have h1 : ∀ x ∈ stats.map (fun s => s.evalCount), x = 1048576 := by
    intro x hx
    obtain ⟨s, hs, rfl⟩ := List.mem_map.mp hx
    rw [hcount s hs]
    norm_num [iterations]
  have h2 := List.eq_replicate_of_mem h1
  rw [List.length_map, hlen] at h2
  rw [show evaluationsOf [Event.benchHeader, Event.warmingUp, Event.runningBenchmark]
      = [] from rfl, List.nil_append, List.append_nil, h2]

/-- Concrete oracle for C1: every evaluation succeeds at cost 1. -/
def allOkOracle : EvalOracle Unit Nat Unit Unit :=
  fun _ _ _ _ => (.ok (), 1)

/-- Witness for the amended C1 at a concrete input. -/
theorem runBenchmark_evaluations_fixed_witness :
    evaluationsOf (runBenchmark allOkOracle [0] [()] () ["x"])
      = List.replicate 1 1048576 :=
  runBenchmark_evaluations_fixed allOkOracle [0] [()] () ["x"] (by decide)

/-- C1 counterexample: with two loaded objects and a fully successful
timed phase, the Evaluations line reports 1048576, not the
1048576 * 2 = iterations times object count required by the claim. -/
theorem runBenchmark_count_counterexample :
    evaluationsOf (runBenchmark allOkOracle [0, 1] [()] () ["x"]) = [1048576]
    ∧ (1048576 : Nat) ≠ 1048576 * 2 := by
  constructor
  · obtain ⟨stats, fin, ht, hlen, hcount⟩ :=
      timedPhase_ok allOkOracle () [0, 1] [()] (by decide) 0
        (warmupEnd allOkOracle () [0, 1] [()] 0)
    rw [runBenchmark_ok_trace allOkOracle [0, 1] [()] () ["x"] stats fin ht,
      evaluationsOf_append, evaluationsOf_append, evaluationsOf_reportStats,
      evaluationsOf_summary]
    cases stats with
    | nil => simp at hlen
    | cons s rest =>
      cases rest with
      | cons a b => simp at hlen
      | nil =>
        have hc := hcount s (List.mem_cons_self s [])
        rw [List.map_cons, List.map_nil, hc,
          show evaluationsOf [Event.benchHeader, Event.warmingUp,
            Event.runningBenchmark] = [] from rfl,
          List.nil_append, List.append_nil,
          show iterations = 1048576 from by norm_num [iterations]]
  · norm_num

theorem timedPhase_costs {Prog Obj Par Val : Type} (e : EvalOracle Prog Obj Par Val)
    (par : Par) (objs : List Obj) :
    ∀ (pcs : List (Prog × Nat)) (i now : Nat),
      (∀ pc ∈ pcs, evalRound e par pc.1 objs = .ok pc.2) →
      timedPhase e par objs (pcs.map Prod.fst) i now
        = .ok (pcs.map (fun pc => ⟨iterations, iterations * pc.2⟩),
               now + iterations * (pcs.map Prod.snd).sum) := by
  intro pcs
  induction pcs with
  | nil => intro i now _; simp [timedPhase]
  | cons pc rest ih =>
    intro i now h
    obtain ⟨p, c⟩ := pc
    have hhead := h (p, c) (List.mem_cons_self (p, c) rest)
    simp only [List.map_cons, timedPhase,
      iterateK_ok e par p objs c hhead iterations,
      ih (i + 1) (now + iterations * c)
        (fun q hq => h q (List.mem_cons_of_mem (p, c) hq))]
    have hdur : now + iterations * c - now = iterations * c := by omega
    have hsum : now + iterations * c + iterations * (List.map Prod.snd rest).sum
        = now + iterations * ((c :: List.map Prod.snd rest).sum) := by
      rw [List.sum_cons, Nat.mul_add]
      omega
    rw [hdur, hsum]

/-! ## Claim C6: rates are normalised by the total timed duration -/

/-- C6: after a fully successful timed phase, every per-program
evaluations-per-second figure is that program's evaluation count
divided by the total wall-clock duration of the entire timed phase
across all programs, and the aggregate rate is the sum of all counts
divided by the same total duration. -/
theorem runBenchmark_rates_total_duration {Prog Obj Par Val : Type}
    (e : EvalOracle Prog Obj Par Val) (objs : List Obj) (programs : List Prog)
    (par : Par) (exprs : List String)
    (hok : ∀ p ∈ programs, ∀ o ∈ objs, ((e .timed p o par).1).isOk = true) :
    ∃ stats fin,
      timedPhase e par objs programs 0 (warmupEnd e par objs programs 0)
        = .ok (stats, fin)
      ∧ ratesOf (runBenchmark e objs programs par exprs)
          = stats.map (fun s => (s.evalCount : ℚ)
              / ((fin - warmupEnd e par objs programs 0 : Nat) : ℚ))
      ∧ overallOf (runBenchmark e objs programs par exprs)
          = [(((stats.map (fun s => s.evalCount)).sum : Nat) : ℚ)
              / ((fin - warmupEnd e par objs programs 0 : Nat) : ℚ)] := by
  obtain ⟨stats, fin, ht, hlen, hcount⟩ :=
    timedPhase_ok e par objs programs hok 0 (warmupEnd e par objs programs 0)
  refine ⟨stats, fin, ht, ?_, ?_⟩
  · rw [runBenchmark_ok_trace e objs programs par exprs stats fin ht,
      ratesOf_append, ratesOf_append,
      ratesOf_reportStats exprs _ stats
        (fun s hs => by rw [hcount s hs]; exact iterations_pos) 0,
      ratesOf_summary,
      show ratesOf [Event.benchHeader, Event.warmingUp, Event.runningBenchmark]
        = [] from rfl,
      List.nil_append, List.append_nil]
  · rw [runBenchmark_ok_trace e objs programs par exprs stats fin ht,
      overallOf_append, overallOf_append, overallOf_reportStats, overallOf_summary,
      show overallOf [Event.benchHeader, Event.warmingUp, Event.runningBenchmark]
        = [] from rfl,
      List.nil_append, List.nil_append]

/-- Concrete oracle for the C6 witness: program p evaluates at cost
2p + 1 ticks, always successfully, in every phase. -/
def rateDemoOracle : EvalOracle Nat Unit Unit Unit :=
  fun _ p _ _ => (.ok (), 2 * p + 1)

/-- Witness for C6: two programs of different speeds.  Program 0 spends
1048576 of the 4194304 total ticks, yet its published rate is
1048576 / 4194304 (a quarter), not 1048576 / 1048576 — the figure its
own accumulated duration would give. -/
theorem runBenchmark_rates_total_duration_witness :
    ratesOf (runBenchmark rateDemoOracle [()] [0, 1] () ["a", "b"])
      = [(1048576 : ℚ) / 4194304, (1048576 : ℚ) / 4194304]
    ∧ ((1048576 : ℚ) / 4194304) ≠ ((1048576 : ℚ) / 1048576)
    ∧ overallOf (runBenchmark rateDemoOracle [()] [0, 1] () ["a", "b"])
      = [(2097152 : ℚ) / 4194304] := by
  obtain ⟨stats, fin, ht, hrates, hoverall⟩ :=
    runBenchmark_rates_total_duration rateDemoOracle [()] [0, 1] () ["a", "b"]
      (by decide)
  have hw : warmupEnd rateDemoOracle () [()] [0, 1] 0 = 40 := rfl
  have hcosts := timedPhase_costs rateDemoOracle () [()] [(0, 1), (1, 3)] 0 40
    (by intro pc hpc; fin_cases hpc <;> rfl)
  simp only [List.map_cons, List.map_nil, List.sum_cons, List.sum_nil] at hcosts
  have hcomp : timedPhase rateDemoOracle () [()] [0, 1] 0
      (warmupEnd rateDemoOracle () [()] [0, 1] 0)
      = .ok ([⟨iterations, iterations⟩, ⟨iterations, 3 * iterations⟩],
             40 + 4 * iterations) := by
    rw [hw, hcosts]
    refine congrArg Except.ok ?_
    refine Prod.ext ?_ ?_
    · simp only
      refine congrArg₂ List.cons ?_ (congrArg₂ List.cons ?_ rfl)
      · refine congrArg (ExprStats.mk iterations) ?_
        omega
      · refine congrArg (ExprStats.mk iterations) ?_
        omega
    · simp only
      omega
  have hsf : stats = [⟨iterations, iterations⟩, ⟨iterations, 3 * iterations⟩]
      ∧ fin = 40 + 4 * iterations := by
    have hq := ht.symm.trans hcomp
    simp only [Except.ok.injEq, Prod.mk.injEq] at hq
    exact hq
  obtain ⟨rfl, rfl⟩ := hsf
  rw [hw] at hrates hoverall
  refine ⟨?_, ?_, ?_⟩
  · rw [hrates]
    norm_num [iterations]
  · norm_num
  · rw [hoverall]
    norm_num [iterations]

/-! ## Properties of the expression splitter -/

/-- Joining segments with the literal three-dash separator (the inverse
direction of splitDashes, used to state that splitting preserves every
segment, empty ones included). -/
def joinDashes : List (List Char) → List Char
  | [] => []
  | [s] => s
  | s :: rest => s ++ '-' :: '-' :: '-' :: joinDashes rest

theorem splitDashes_cons_ne (c : Char) (cs acc : List Char) (hc : c ≠ '-') :
    splitDashes (c :: cs) acc = splitDashes cs (c :: acc) := by
  rw [splitDashes.eq_def]
  split
  · rename_i heq
    rw [List.cons.injEq] at heq
    exact absurd heq.1 hc
  · rename_i heq
    rw [List.cons.injEq] at heq
    rw [heq.1, heq.2]
  · rename_i heq
    simp at heq

theorem splitDashes_free (seg : List Char) :
    ∀ acc : List Char, (∀ c ∈ seg, c ≠ '-') →
      splitDashes seg acc = [acc.reverse ++ seg] := by
  induction seg with
  | nil => intro acc _; simp [splitDashes]
  | cons c cs ih =>
    intro acc h
    rw [splitDashes_cons_ne c cs acc (h c (List.mem_cons_self c cs)),
      ih (c :: acc) (fun x hx => h x (List.mem_cons_of_mem c hx))]
    simp

theorem splitDashes_seg_sep (seg : List Char) :
    ∀ (rest acc : List Char), (∀ c ∈ seg, c ≠ '-') →
      splitDashes (seg ++ '-' :: '-' :: '-' :: rest) acc
        = (acc.reverse ++ seg) :: splitDashes rest [] := by
  induction seg with
  | nil =>
    intro rest acc _
    rw [List.nil_append,
      show splitDashes ('-' :: '-' :: '-' :: rest) acc
        = acc.reverse :: splitDashes rest [] from rfl]
    simp
  | cons c cs ih =>
    intro rest acc h
    rw [List.cons_append,
      splitDashes_cons_ne c (cs ++ '-' :: '-' :: '-' :: rest) acc
        (h c (List.mem_cons_self c cs)),
      ih rest (c :: acc) (fun x hx => h x (List.mem_cons_of_mem c hx))]
    simp

theorem splitDashes_joinDashes :
    ∀ (segs : List (List Char)) (first : List Char),
      (∀ c ∈ first, c ≠ '-') → (∀ seg ∈ segs, ∀ c ∈ seg, c ≠ '-') →
      splitDashes (joinDashes (first :: segs)) [] = first :: segs := by
  intro segs
  induction segs with
  | nil =>
    intro first h _
    rw [show joinDashes [first] = first from rfl, splitDashes_free first [] h]
    rfl
  | cons s2 rest ih =>
    intro first h hsegs
    rw [show joinDashes (first :: s2 :: rest)
        = first ++ '-' :: '-' :: '-' :: joinDashes (s2 :: rest) from rfl,
      splitDashes_seg_sep first (joinDashes (s2 :: rest)) [] h,
      ih s2 (hsegs s2 (List.mem_cons_self s2 rest))
        (fun sg hsg => hsegs sg (List.mem_cons_of_mem s2 hsg))]
    rfl

/-! ## Properties of batch compilation -/

theorem compileExpressions_ok_length {Ast Prog : Type} (env : Env Ast Prog) :
    ∀ (exprs : List String) (ps : List Prog),
      compileExpressions env exprs = .ok ps →
      ps.length = (exprs.filter (fun s => !(s == ""))).length := by
  intro exprs
  induction exprs with
  | nil =>
    intro ps h
    simp only [compileExpressions, Except.ok.injEq] at h
    subst h
    rfl
  | cons expr rest ih =>
    intro ps h
    rw [compileExpressions] at h
    by_cases he : expr = ""
    · rw [if_pos he] at h
      have := ih ps h
      simpa [List.filter_cons, he] using this
    · rw [if_neg he] at h
      cases hc : env.compile expr with
      | error m => simp [hc] at h
      | ok ast =>
        simp only [hc] at h
        cases hp : env.program ast with
        | error m => simp [hp] at h
        | ok p =>
          simp only [hp] at h
          cases hr : compileExpressions env rest with
          | error ce => simp [hr, Except.map] at h
          | ok ps' =>
            simp only [hr, Except.map, Except.ok.injEq] at h
            subst h
            simp [List.filter_cons, he, ih ps' hr]

theorem compileExpressions_skip_empty {Ast Prog : Type} (env : Env Ast Prog)
    (post : List String) : ∀ pre : List String,
    compileExpressions env (pre ++ "" :: post) = compileExpressions env (pre ++ post) := by
  intro pre
  induction pre with
  | nil => simp [compileExpressions]
  | cons x pre ih =>
    by_cases hx : x = ""
    · subst hx
      rw [List.cons_append, List.cons_append]
      simp only [compileExpressions, if_pos rfl]
      exact ih
    · rw [List.cons_append, List.cons_append]
      simp only [compileExpressions, if_neg hx, ih]

/-! ## Matrix membership and raw-versus-filtered index lemmas -/

theorem mem_runMatrixExprs {Ast Prog Obj Par Val : Type} (env : Env Ast Prog)
    (evalProg : Prog → Obj → Par → Except String Val)
    (obj : Obj) (par : Par) (objOrd : Nat) :
    ∀ (l : List (Nat × String)) (c : Cell Val),
      c ∈ runMatrixExprs env evalProg obj par objOrd l →
      ∃ q ∈ l, q.2 ≠ "" ∧ c.exprOrdinal = q.1 + 1 := by
  intro l
  induction l with
  | nil => intro c hc; simp [runMatrixExprs] at hc
  | cons q rest ih =>
    intro c hc
    obtain ⟨i, expr⟩ := q
    by_cases he : expr = ""
    · simp only [runMatrixExprs, if_pos he] at hc
      obtain ⟨q', hq', h2, h3⟩ := ih c hc
      exact ⟨q', List.mem_cons_of_mem _ hq', h2, h3⟩
    · simp only [runMatrixExprs, if_neg he] at hc
      rcases List.mem_cons.mp hc with rfl | hmem
      · exact ⟨(i, expr), List.mem_cons_self _ _, he, rfl⟩
      · obtain ⟨q', hq', h2, h3⟩ := ih c hmem
        exact ⟨q', List.mem_cons_of_mem _ hq', h2, h3⟩

theorem mem_runMatrixObjs {Ast Prog Obj Par Val : Type} (env : Env Ast Prog)
    (evalProg : Prog → Obj → Par → Except String Val) (par : Par) :
    ∀ (ol : List (Nat × Obj)) (es : List (Nat × String)) (c : Cell Val),
      c ∈ runMatrixObjs env evalProg par ol es →
      ∃ q ∈ es, q.2 ≠ "" ∧ c.exprOrdinal = q.1 + 1 := by
  intro ol
  induction ol with
  | nil => intro es c hc; simp [runMatrixObjs] at hc
  | cons hd tl ih =>
    intro es c hc
    obtain ⟨oi, obj⟩ := hd
    rw [runMatrixObjs] at hc
    rcases List.mem_append.mp hc with hin | hin
    · exact mem_runMatrixExprs env evalProg obj par (oi + 1) es c hin
    · exact ih es c hin

theorem get?_of_mem_enum {α : Type} {l : List α} {q : Nat × α}
    (h : q ∈ l.enum) : l.get? q.1 = some q.2 := by
  obtain ⟨i, a⟩ := q
  obtain ⟨_, hb, ha⟩ := List.mem_enumFrom (show (i, a) ∈ List.enumFrom 0 l from h)
  rw [List.get?_eq_getElem?, List.getElem?_eq_getElem (show i < l.length by simpa using hb)]
  simp only [Option.some.injEq]
  rw [ha]
  simp

theorem raw_vs_filtered_mismatch (exprs : List String)
    (hmix : ∃ k j, k < j ∧ exprs.get? k = some ""
      ∧ ∃ s, exprs.get? j = some s ∧ s ≠ "") :
    ∃ i, i < (exprs.filter (fun s => !(s == ""))).length ∧
      exprs.get? i ≠ (exprs.filter (fun s => !(s == ""))).get? i := by
  obtain ⟨k, j, hkj, hk, s, hj, hs⟩ := hmix
  by_contra hcon
  push_neg at hcon
  have hmle : (exprs.filter (fun s => !(s == ""))).length ≤ exprs.length :=
    List.length_filter_le _ _
  set m := (exprs.filter (fun s => !(s == ""))).length with hm
  have hne : ∀ i, i < m → ∃ t, exprs.get? i = some t ∧ t ≠ "" := by
    intro i hi
    have h1 := hcon i hi
    have h2 : (exprs.filter (fun s => !(s == ""))).get? i
        = some ((exprs.filter (fun s => !(s == ""))).get ⟨i, hi⟩) :=
      List.get?_eq_get hi
    refine ⟨(exprs.filter (fun s => !(s == ""))).get ⟨i, hi⟩, by rw [h1, h2], ?_⟩
    have hmem : (exprs.filter (fun s => !(s == ""))).get ⟨i, hi⟩
        ∈ exprs.filter (fun s => !(s == "")) := List.get_mem _ i hi
    have hpred := List.of_mem_filter hmem
    simpa using hpred
  have hkm : m ≤ k := by
    by_contra hklt
    push_neg at hklt
    obtain ⟨t, ht, htne⟩ := hne k hklt
    rw [hk] at ht
    exact htne (Option.some.inj ht).symm
  have hcount : List.countP (fun s => !(s == "")) exprs = m := by
    rw [hm, List.countP_eq_length_filter]
  have hallt : ∀ a ∈ exprs.take m, (fun s : String => !(s == "")) a = true := by
    intro a ha
    obtain ⟨i, hil, hia⟩ := List.getElem_of_mem ha
    have hilen : i < m := by
      simp only [List.length_take] at hil
      omega
    have hile : i < exprs.length := by omega
    obtain ⟨t, ht, htne⟩ := hne i hilen
    have hga : exprs.get? i = some a := by
      rw [List.get?_eq_getElem?, List.getElem?_eq_getElem hile, ← hia,
        List.getElem_take]
    rw [ht] at hga
    have hta : t = a := Option.some.inj hga
    subst hta
    simpa using htne
  have htake : List.countP (fun s => !(s == "")) (exprs.take m)
      = (exprs.take m).length :=
    List.countP_eq_length.mpr hallt
  have htlen : (exprs.take m).length = m := by
    simp only [List.length_take]
    omega
  have hdrop : List.countP (fun s => !(s == "")) (exprs.drop m) = 0 := by
    have hsplit : List.countP (fun s => !(s == "")) (exprs.take m ++ exprs.drop m)
        = List.countP (fun s => !(s == "")) (exprs.take m)
          + List.countP (fun s => !(s == "")) (exprs.drop m) := by
      rw [List.countP_append]
    rw [List.take_append_drop] at hsplit
    rw [hcount, htake, htlen] at hsplit
    omega
  have hallempty : ∀ a ∈ exprs.drop m, a = "" := by
    intro a ha
    have := List.countP_eq_zero.mp hdrop a ha
    simpa using this
  have hjlen : j < exprs.length := by
    rcases List.get?_eq_some.mp hj with ⟨hb, _⟩
    exact hb
  have hjm : m ≤ j := le_trans hkm (Nat.le_of_lt hkj)
  have hmem : s ∈ exprs.drop m := by
    have hd : (exprs.drop m).get? (j - m) = some s := by
      rw [List.get?_drop, show m + (j - m) = j from by omega, hj]
    exact List.get?_mem hd
  exact hs (hallempty s hmem)

/-! ## Claim C2: what the batch-compilation error carries -/

/-- Concrete environment for C2: only the expression "bad" fails to
compile, with underlying message "boom". -/
def env2 : Env Unit Unit :=
  ⟨fun s => if s = "bad" then .error "boom" else .ok (), fun _ => .ok ()⟩

/-- C2 counterexample: two batches whose failing expression sits at
different ordinals (first versus second position, as the isOk facts
show) produce the very same error value, so the returned error cannot
carry the index of the failing expression. -/
theorem compileExpressions_no_index_counterexample :
    compileExpressions env2 ["bad", "ok"] = .error (.compilationFailed "boom")
    ∧ compileExpressions env2 ["ok", "bad"] = .error (.compilationFailed "boom")
    ∧ (env2.compile "bad").isOk = false
    ∧ (env2.compile "ok").isOk = true :=
  ⟨rfl, rfl, rfl, rfl⟩

/-- C2 (amended): batch compilation aborts on the first compile or
program-creation failure and returns an error carrying the underlying
cause's message (but no index). -/
theorem compileExpressions_first_failure_aborts {Ast Prog : Type}
    (env : Env Ast Prog) (post : List String) (expr m : String)
    (hne : expr ≠ "") :
    ∀ pre : List String,
      (∀ x ∈ pre, x = "" ∨ ∃ a p, env.compile x = .ok a ∧ env.program a = .ok p) →
      ((env.compile expr = .error m →
        compileExpressions env (pre ++ expr :: post)
          = .error (.compilationFailed m))
      ∧ ∀ a, env.compile expr = .ok a → env.program a = .error m →
        compileExpressions env (pre ++ expr :: post)
          = .error (.programCreationFailed m)) := by
  intro pre
  induction pre with
  | nil =>
    intro _
    constructor
    · intro hc
      simp only [List.nil_append, compileExpressions, if_neg hne, hc]
    · intro a hc hp
      simp only [List.nil_append, compileExpressions, if_neg hne, hc, hp]
  | cons x pre ih =>
    intro hpre
    have ih' := ih (fun y hy => hpre y (List.mem_cons_of_mem x hy))
    by_cases hxe : x = ""
    · subst hxe
      have hskip : compileExpressions env ("" :: (pre ++ expr :: post))
          = compileExpressions env (pre ++ expr :: post) := by
        simp [compileExpressions]
      exact ⟨fun hc => by rw [List.cons_append, hskip]; exact ih'.1 hc,
             fun a hc hp => by rw [List.cons_append, hskip]; exact ih'.2 a hc hp⟩
    · rcases hpre x (List.mem_cons_self x pre) with hx | ⟨a0, p0, hca, hpa⟩
      · exact absurd hx hxe
      · have hstep : compileExpressions env (x :: (pre ++ expr :: post))
            = (compileExpressions env (pre ++ expr :: post)).map
                (fun ps => p0 :: ps) := by
          simp only [compileExpressions, if_neg hxe, hca, hpa]
        constructor
        · intro hc
          rw [List.cons_append, hstep, ih'.1 hc]
          rfl
        · intro a hc hp
          rw [List.cons_append, hstep, ih'.2 a hc hp]
          rfl

/-- Concrete environment for the C2 witness whose program creation
always fails. -/
def env2b : Env Unit Unit :=
  ⟨fun _ => .ok (), fun _ => .error "bind refused"⟩

/-- Witness for the amended C2: a compile failure after a successful
and an empty expression, and a program-creation failure in first
position. -/
theorem compileExpressions_first_failure_aborts_witness :
    compileExpressions env2 ["ok", "", "bad", "x"]
      = .error (.compilationFailed "boom")
    ∧ compileExpressions env2b ["y", "z"]
      = .error (.programCreationFailed "bind refused") :=
  ⟨(compileExpressions_first_failure_aborts env2 ["x"] "bad" "boom"
      (by decide) ["ok", ""]
      (by
        intro x hx
        rcases List.mem_cons.mp hx with rfl | hx2
        · exact Or.inr ⟨(), (), rfl, rfl⟩
        · rcases List.mem_cons.mp hx2 with rfl | hx3
          · exact Or.inl rfl
          · exact absurd hx3 (List.not_mem_nil x))).1 rfl,
   (compileExpressions_first_failure_aborts env2b ["z"] "y" "bind refused"
      (by decide) []
      (fun x hx => absurd hx (List.not_mem_nil x))).2 () rfl rfl⟩

/-! ## Claim C5: empty expressions are preserved by the split and
skipped by every consumer -/

/-- C5: splitting preserves zero-length segments (both on the concrete
scenario from the spec and for every dash-free segment list rejoined
with the delimiter), and every downstream consumer skips empty
expressions: a successful batch compilation has exactly one program per
non-empty expression, inserting an empty expression anywhere leaves the
batch result unchanged, and every interactive matrix cell points at a
non-empty expression. -/
theorem empty_expressions_skipped :
    splitExpressions "a==1\n---\n\n---\nb==2" = ["a==1", "", "b==2"]
    ∧ (∀ (segs : List (List Char)) (first : List Char),
        (∀ c ∈ first, c ≠ '-') → (∀ seg ∈ segs, ∀ c ∈ seg, c ≠ '-') →
        splitDashes (joinDashes (first :: segs)) [] = first :: segs)
    ∧ (∀ (Ast Prog : Type) (env : Env Ast Prog) (exprs : List String)
        (ps : List Prog), compileExpressions env exprs = .ok ps →
        ps.length = (exprs.filter (fun s => !(s == ""))).length)
    ∧ (∀ (Ast Prog : Type) (env : Env Ast Prog) (pre post : List String),
        compileExpressions env (pre ++ "" :: post)
          = compileExpressions env (pre ++ post))
    ∧ (∀ (Ast Prog Obj Par Val : Type) (env : Env Ast Prog)
        (evalProg : Prog → Obj → Par → Except String Val)
        (objs : List Obj) (par : Par) (exprs : List String),
        ∀ c ∈ runMatrix env evalProg objs par exprs,
          ∃ s, exprs.get? (c.exprOrdinal - 1) = some s ∧ s ≠ "") := by
  refine ⟨by decide, splitDashes_joinDashes, ?_, ?_, ?_⟩
  · intro Ast Prog env exprs ps h
    exact compileExpressions_ok_length env exprs ps h
  · intro Ast Prog env pre post
    exact compileExpressions_skip_empty env post pre
  · intro Ast Prog Obj Par Val env evalProg objs par exprs c hc
    obtain ⟨q, hq, hq2, hq3⟩ :=
      mem_runMatrixObjs env evalProg par objs.enum exprs.enum c hc
    refine ⟨q.2, ?_, hq2⟩
    rw [hq3, Nat.add_sub_cancel]
    exact get?_of_mem_enum hq

/-- Concrete all-accepting environment and evaluator for the C5
witness. -/
def env5 : Env Unit Unit := ⟨fun _ => .ok (), fun _ => .ok ()⟩

/-- Concrete evaluator for the C5 witness. -/
def eval5 : Unit → Unit → Unit → Except String Unit := fun _ _ _ => .ok ()

/-- Witness for C5 at concrete inputs: the scenario split, a rejoined
dash-free segment list with an empty middle segment, a concrete batch
whose compiled count skips the empty, insertion of an empty expression
into a concrete batch, and the single cell of a concrete matrix over
the expressions ["", "x"], which points at the non-empty "x". -/
theorem empty_expressions_skipped_witness :
    splitExpressions "a==1\n---\n\n---\nb==2" = ["a==1", "", "b==2"]
    ∧ splitDashes (joinDashes [['a'], [], ['b']]) [] = [['a'], [], ['b']]
    ∧ ([(), ()] : List Unit).length
        = (["a==1", "", "b==2"].filter (fun s => !(s == ""))).length
    ∧ compileExpressions env5 (["a"] ++ "" :: ["b"])
        = compileExpressions env5 (["a"] ++ ["b"])
    ∧ ∃ s, (["", "x"] : List String).get?
        ((⟨1, 2, CellResult.success ()⟩ : Cell Unit).exprOrdinal - 1)
          = some s ∧ s ≠ "" := by
  obtain ⟨h1, h2, h3, h4, h5⟩ := empty_expressions_skipped
  refine ⟨h1, h2 [[], ['b']] ['a'] (by decide) (by decide), ?_, ?_, ?_⟩
  · exact h3 Unit Unit env5 ["a==1", "", "b==2"] [(), ()] rfl
  · exact h4 Unit Unit env5 ["a"] ["b"]
  · exact h5 Unit Unit Unit Unit Unit env5 eval5 [()] () ["", "x"]
      ⟨1, 2, CellResult.success ()⟩ (by decide)

/-! ## Claim C9: the Content line is taken from the raw split sequence -/

/-- C9: in the benchmark report the Content line for the program at
compiled position i is built from index i of the raw split expression
sequence (the trace's contents are the snippets of the first
programs-many raw expressions); hence whenever an empty segment
precedes a non-empty expression, some program's content index i holds a
different string than the i-th compiled (non-empty) expression. -/
theorem benchmark_content_misaligned {Ast Prog Obj Par Val : Type}
    (env : Env Ast Prog) (e : EvalOracle Prog Obj Par Val) (objs : List Obj)
    (par : Par) (exprs : List String) (programs : List Prog)
    (hc : compileExpressions env exprs = .ok programs)
    (hok : ∀ p ∈ programs, ∀ o ∈ objs, ((e .timed p o par).1).isOk = true)
    (hmix : ∃ k j, k < j ∧ exprs.get? k = some ""
      ∧ ∃ s, exprs.get? j = some s ∧ s ≠ "") :
    contentsOf (runBenchmark e objs programs par exprs)
      = (exprs.take programs.length).map contentSnippet
    ∧ ∃ i, i < programs.length ∧
        exprs.get? i ≠ (exprs.filter (fun s => !(s == ""))).get? i := by
  have hlen2 := compileExpressions_ok_length env exprs programs hc
  constructor
  · obtain ⟨stats, fin, ht, hlen, hcount⟩ :=
      timedPhase_ok e par objs programs hok 0 (warmupEnd e par objs programs 0)
    rw [runBenchmark_ok_trace e objs programs par exprs stats fin ht,
      contentsOf_append, contentsOf_append,
      contentsOf_reportStats exprs _ stats 0
        (by
          rw [Nat.zero_add, hlen, hlen2]
          exact List.length_filter_le _ exprs),
      contentsOf_summary,
      show contentsOf [Event.benchHeader, Event.warmingUp, Event.runningBenchmark]
        = [] from rfl,
      List.nil_append, List.append_nil, List.drop_zero, hlen]
  · obtain ⟨i, hi, hne⟩ := raw_vs_filtered_mismatch exprs hmix
    exact ⟨i, by rw [hlen2]; exact hi, hne⟩

/-- Concrete environment for the C9 witness. -/
def env9 : Env Unit Unit := ⟨fun _ => .ok (), fun _ => .ok ()⟩

/-- Concrete oracle for the C9 witness: always succeeds at cost 1. -/
def oracle9 : EvalOracle Unit Unit Unit Unit := fun _ _ _ _ => (.ok (), 1)

/-- Witness for C9 on the raw expression list ["", "a"]: the single
compiled program's Content line is built from the raw index 0 (the
empty segment), which differs from the compiled expression "a". -/
theorem benchmark_content_misaligned_witness :
    contentsOf (runBenchmark oracle9 [()] [()] () ["", "a"])
      = ((["", "a"] : List String).take 1).map contentSnippet
    ∧ ∃ i, i < 1 ∧
        (["", "a"] : List String).get? i
          ≠ ((["", "a"] : List String).filter (fun s => !(s == ""))).get? i :=
  benchmark_content_misaligned env9 oracle9 [()] () ["", "a"] [()]
    rfl (by decide) ⟨0, 1, by omega, rfl, "a", rfl, by decide⟩
